import Mathlib

/-!
Verification of the formula evaluation engine of the `excel-clone` repository
(`src/components/Home/VirtualizedGrid/index.tsx`), as a shallow embedding in Lean.

Modelling conventions:
* JavaScript numbers that only ever hold integer grid indices / integer arithmetic
  results are modelled as `Nat`/`Int` (exact for the safe-integer range actually
  exercised here).
* The object keys `` `${row},${col}` `` are modelled as the pair `(row, col) : Int × Int`;
  the string encoding of an integer pair is injective, so key equality coincides.
* The JavaScript objects `gridData` and `calculationCache.current` are modelled as
  association lists (`setValue` / cache writes prepend, lookups take the first hit,
  which matches object-key overwrite semantics).
* The recursion of `displayValue` has no termination measure in the source, so the
  embedding is fuel-indexed: `displayValue g fuel …` returns `(none, cache)` when
  `fuel` recursion steps do not suffice; a `some` result is fuel-monotone and is the
  value the JavaScript function returns.
* `new Function ("return " + parsedExpr)()` is host-language dynamic evaluation; the
  embedding `hostEval` models it only on the bounded arithmetic fragment
  (decimal literals, binary `+`, `-`, `*`, parentheses, spaces) and returns `none`
  (undetermined / outside the modelled fragment) elsewhere.
-/

set_option maxHeartbeats 1000000

namespace ExcelClone

/-- A cell key: the `(row, col)` pair behind the string key `` `${row},${col}` ``
(`getCellKey` in the source). -/
abbrev Key := Int × Int

/-- The `gridData` object: association list from keys to raw content. -/
abbrev Grid := List (Key × String)

/-- The `calculationCache.current` object. -/
abbrev Cache := List (Key × String)

/-- Object property lookup for the association-list model of a JS object. -/
def alookup : List (Key × String) → Key → Option String
  | [], _ => none
  | (k, v) :: rest, k2 => if k2 = k then some v else alookup rest k2

/-- Object property assignment (`obj[key] = v`): prepend, so lookups see the new value. -/
def cacheInsert (cache : Cache) (k : Key) (v : String) : Cache := (k, v) :: cache

/-- The character class `[A-Z]` of the reference-token regexes. -/
def isUpperAZ (c : Char) : Bool := 65 ≤ c.toNat && c.toNat ≤ 90

/-- The character class `\d` (i.e. `[0-9]`) of the reference-token regexes. -/
def isDigitCh (c : Char) : Bool := 48 ≤ c.toNat && c.toNat ≤ 57

/-- The character for digit value `d` (`0`–`9`). -/
def digitChar (d : Nat) : Char := Char.ofNat (48 + d)

/-- The character `String.fromCharCode(65 + d)` for a base-26 letter digit `d` (`0`–`25`). -/
def letterChar (d : Nat) : Char := Char.ofNat (65 + d)

/-- `parseInt` on a run of decimal digit characters. -/
def digitsToNat (ds : List Char) : Nat := ds.foldl (fun a c => a * 10 + (c.toNat - 48)) 0

/-- Decimal digits of `n`, most significant first (fuelled; `natToString` supplies
enough fuel). Models the JS decimal rendering `` `${n}` `` of a non-negative integer. -/
def natToStringAux : Nat → Nat → List Char
  | 0, _ => []
  | f + 1, n => if n < 10 then [digitChar n] else natToStringAux f (n / 10) ++ [digitChar (n % 10)]

/-- Decimal rendering of a `Nat`, as the JS string conversion of an integer produces. -/
def natToString (n : Nat) : List Char := natToStringAux (n + 1) n

/-- Decimal rendering of an `Int` (`result.toString()` on an integer number). -/
def intToString (i : Int) : String :=
  if i < 0 then String.mk ('-' :: natToString i.natAbs) else String.mk (natToString i.toNat)

/-- The bijective base-26 digits (values `0`–`25`) of column `c`, most significant first:
the loop of `cellKeyToLabel` (`colLabel = fromCharCode(65 + colNum % 26) + colLabel;
colNum = floor(colNum / 26) - 1` until negative), fuelled (`c` steps always suffice). -/
def colDigitsAux : Nat → Nat → List Nat
  | 0, c => [c % 26]
  | f + 1, c => if c < 26 then [c] else colDigitsAux f (c / 26 - 1) ++ [c % 26]

/-- Bijective base-26 digits of a column number. -/
def colDigits (c : Nat) : List Nat := colDigitsAux c c

/-- `cellKeyToLabel(row, col)`: bijective base-26 column letters followed by the
1-based row number. -/
def cellKeyToLabel (row col : Nat) : String :=
  String.mk ((colDigits col).map letterChar ++ natToString (row + 1))

/-- The accumulation `col = col * 26 + (charCode - 65 + 1)` of `labelToCellKey`. -/
def lettersToColValue (L : List Char) : Nat := L.foldl (fun a c => a * 26 + (c.toNat - 65 + 1)) 0

/-- `labelToCellKey(label)`: match `^([A-Z]+)(\d+)$` (take the maximal uppercase run;
the remainder must be a non-empty digit run), decode letters by bijective base-26 and
the row by `parseInt(rowStr) - 1`.  Returns the `(row, col)` key, `none` on no match. -/
def labelToCellKey (label : String) : Option Key :=
  let cs := label.toList
  let L := cs.takeWhile isUpperAZ
  let R := cs.dropWhile isUpperAZ
  if L = [] ∨ R = [] ∨ ¬(R.all isDigitCh) then none
  else some (((digitsToNat R : Int) - 1, (lettersToColValue L : Int) - 1))

/-- Models `!isNaN(Number(val))` for the fragment exercised here: an optional sign
followed by a non-empty run of decimal digits.  Other `Number()` spellings
(fractions, exponents, hex, whitespace) are outside the modelled fragment. -/
def jsIsNumeric (s : String) : Bool :=
  let cs := s.toList
  let cs2 := match cs with
    | '+' :: rest => rest
    | '-' :: rest => rest
    | _ => cs
  !cs2.isEmpty && cs2.all isDigitCh

/-- `s.startsWith("=")`: whether the stored text is a formula. -/
def startsWithEq (s : String) : Bool :=
  match s.toList with
  | '=' :: _ => true
  | _ => false

/-- One segment of a formula expression, as the global regex replace
`expr.replace(/[A-Z]+\d+/g, …)` partitions it: either characters copied verbatim or
a matched reference token (its letter run and digit run). -/
inductive Seg where
  | lit (cs : List Char)
  | ref (letters digits : List Char)
deriving DecidableEq, Repr

/-- Scanner state while replaying the left-to-right regex scan. -/
inductive ScanState where
  | copy
  | letters (acc : List Char)
  | digits (letters acc : List Char)
deriving DecidableEq, Repr

/-- One step of the regex scan: the matcher is inside no token, inside a maximal
uppercase run, or inside the digit run completing a token. -/
def segStep : ScanState → Char → List Seg × ScanState
  | .copy, c =>
    if isUpperAZ c then ([], .letters [c]) else ([.lit [c]], .copy)
  | .letters acc, c =>
    if isUpperAZ c then ([], .letters (acc ++ [c]))
    else if isDigitCh c then ([], .digits acc [c])
    else ([.lit acc, .lit [c]], .copy)
  | .digits L acc, c =>
    if isDigitCh c then ([], .digits L (acc ++ [c]))
    else if isUpperAZ c then ([.ref L acc], .letters [c])
    else ([.ref L acc, .lit [c]], .copy)

/-- End-of-input: a pending uppercase run that never met a digit is literal text
(the regex needs at least one digit); a pending digit run completes a token. -/
def segFlush : ScanState → List Seg
  | .copy => []
  | .letters acc => [.lit acc]
  | .digits L acc => [.ref L acc]

/-- Run the scanner over the remaining characters. -/
def segsFrom : ScanState → List Char → List Seg
  | st, [] => segFlush st
  | st, c :: cs => (segStep st c).1 ++ segsFrom (segStep st c).2 cs

/-- Split an expression into the segments visited by `expr.replace(/[A-Z]+\d+/g, …)`:
the matched tokens are exactly the maximal uppercase runs immediately followed by a
digit run (taken maximally), everything else is copied. -/
def segmentize (cs : List Char) : List Seg := segsFrom .copy cs

/-- Outcome of the substitution scan: the substituted expression text, or the message
of the exception the replace callback threw. -/
inductive ExprOut where
  | ok (out : List Char)
  | err (msg : String)
deriving DecidableEq, Repr

/-- Token of the modelled arithmetic fragment accepted by `hostEval`. -/
inductive HTok where
  | num (n : Nat)
  | plus
  | minus
  | star
  | lp
  | rp
deriving DecidableEq, Repr

/-- Tokenizer for the modelled arithmetic fragment (fuelled; `length + 1` suffices).
Any character outside the fragment makes the whole expression unmodelled (`none`). -/
def hTokenize : Nat → List Char → Option (List HTok)
  | 0, _ => none
  | _, [] => some []
  | f + 1, c :: cs =>
    if c = ' ' then hTokenize f cs
    else if isDigitCh c then
      (hTokenize f (cs.dropWhile isDigitCh)).map
        (fun ts => .num (digitsToNat (c :: cs.takeWhile isDigitCh)) :: ts)
    else if c = '+' then (hTokenize f cs).map (.plus :: ·)
    else if c = '-' then (hTokenize f cs).map (.minus :: ·)
    else if c = '*' then (hTokenize f cs).map (.star :: ·)
    else if c = '(' then (hTokenize f cs).map (.lp :: ·)
    else if c = ')' then (hTokenize f cs).map (.rp :: ·)
    else none

/-- Operator precedence (as in JS: `*` binds tighter than `+`/`-`). -/
def hPrec : HTok → Nat
  | .plus => 1
  | .minus => 1
  | .star => 2
  | _ => 0

/-- Apply a binary operator to two integer operands. -/
def applyBin : HTok → Int → Int → Option Int
  | .plus, a, b => some (a + b)
  | .minus, a, b => some (a - b)
  | .star, a, b => some (a * b)
  | _, _, _ => none

/-- Shunting-yard: pop and apply stacked operators of precedence at least `p`. -/
def popOps (p : Nat) : List HTok → List Int → Option (List HTok × List Int)
  | [], vals => some ([], vals)
  | op :: ops, vals =>
    if p ≤ hPrec op then
      match vals with
      | b :: a :: vs =>
        match applyBin op a b with
        | some r => popOps p ops (r :: vs)
        | none => none
      | _ => none
    else some (op :: ops, vals)

/-- Shunting-yard: on `)`, pop and apply until the matching `(`. -/
def popToLp : List HTok → List Int → Option (List HTok × List Int)
  | [], _ => none
  | .lp :: ops, vals => some (ops, vals)
  | op :: ops, vals =>
    match vals with
    | b :: a :: vs =>
      match applyBin op a b with
      | some r => popToLp ops (r :: vs)
      | none => none
    | _ => none

/-- Shunting-yard: at end of input, apply everything; exactly one value must remain. -/
def syFinish : List HTok → List Int → Option Int
  | [], [v] => some v
  | [], _ => none
  | .lp :: _, _ => none
  | op :: ops, vals =>
    match vals with
    | b :: a :: vs =>
      match applyBin op a b with
      | some r => syFinish ops (r :: vs)
      | none => none
    | _ => none

/-- Shunting-yard evaluation of the token stream (left-associative `+`, `-`, `*`;
parentheses).  `none` on any malformed stream. -/
def sy : List HTok → List HTok → List Int → Option Int
  | [], ops, vals => syFinish ops vals
  | .num n :: ts, ops, vals => sy ts ops ((n : Int) :: vals)
  | .lp :: ts, ops, vals => sy ts (.lp :: ops) vals
  | .rp :: ts, ops, vals =>
    match popToLp ops vals with
    | some (ops2, vals2) => sy ts ops2 vals2
    | none => none
  | op :: ts, ops, vals =>
    match popOps (hPrec op) ops vals with
    | some (ops2, vals2) => sy ts (op :: ops2) vals2
    | none => none

/-- Model of `new Function ("return " + src)()` followed by
`result?.toString() ?? "ERR"`, on the bounded arithmetic fragment.
An empty (or all-space) body returns `undefined`, hence `"ERR"`.  A stream the
fragment's grammar rejects, or any character outside the fragment, is host-language
behaviour the model does not determine: `none`. -/
def hostEval (cs : List Char) : Option String :=
  match hTokenize (cs.length + 1) cs with
  | none => none
  | some [] => some "ERR"
  | some ts =>
    match sy ts [] [] with
    | some v => some (intToString v)
    | none => none

/-- `gridData[key] || ""` (`getValue` in the source). -/
def getValue (g : Grid) (row col : Int) : String := (alookup g (row, col)).getD ""

/-- Map a function over the output of a successful scan, passing through thrown
exceptions and fuel exhaustion unchanged (with the cache as mutated so far). -/
def mapOk (f : List Char → List Char) : Option ExprOut × Cache → Option ExprOut × Cache
  | (some (.ok out), cache) => (some (.ok (f out)), cache)
  | other => other

/-- The part of the replace callback after the token has decoded to a key `k`
(`const key = labelToCellKey(label)` succeeded): throw on a repeated or self
reference, otherwise substitute `"0"` for an absent/empty cell, the recursively
obtained display text for a formula cell (`dv`, one fuel step down), and the literal
itself — numeric or quoted — otherwise.  `cont` continues the scan over the rest of
the expression with the updated `referencedCells` set and cache. -/
def refSubst (g : Grid) (dv : Int → Int → Cache → Option String × Cache) (ck : Key)
    (cont : List Key → Cache → Option ExprOut × Cache) (k : Key)
    (seen : List Key) (cache : Cache) : Option ExprOut × Cache :=
  if k ∈ seen ∨ k = ck then (some (.err "Circular reference"), cache)
  else
    match alookup g k with
    | none => mapOk ('0' :: ·) (cont (k :: seen) cache)
    | some v =>
      if v = "" then mapOk ('0' :: ·) (cont (k :: seen) cache)
      else if startsWithEq v then
        match dv k.1 k.2 cache with
        | (none, cache2) => (none, cache2)
        | (some s, cache2) => mapOk (s.toList ++ ·) (cont (k :: seen) cache2)
      else if jsIsNumeric v then mapOk (v.toList ++ ·) (cont (k :: seen) cache)
      else mapOk (('"' :: v.toList ++ ['"']) ++ ·) (cont (k :: seen) cache)

/-- The body of the replace callback of `displayValue`, run left to right over the
segments of the expression.  `dv` is the recursive `displayValue` entry (one fuel
step down); `ck` is `cellKey`; `seen` is the `referencedCells` set; the cache is the
mutable `calculationCache.current`, threaded through nested calls.  A first result
component of `none` means a nested call exhausted its fuel (the source recursion has
no guard); `some (.err msg)` is a thrown exception; `some (.ok out)` the substituted
text `parsedExpr`.  A token that fails to decode degrades to `"0"`
(`if (!key) return "0"`). -/
def processSegs (g : Grid) (dv : Int → Int → Cache → Option String × Cache) (ck : Key) :
    List Seg → List Key → Cache → Option ExprOut × Cache
  | [] => fun _ cache => (some (.ok []), cache)
  | .lit cs :: rest => fun seen cache => mapOk (cs ++ ·) (processSegs g dv ck rest seen cache)
  | .ref L D :: rest => fun seen cache =>
    match labelToCellKey (String.mk (L ++ D)) with
    | none => mapOk ('0' :: ·) (processSegs g dv ck rest seen cache)
    | some k => refSubst g dv ck (processSegs g dv ck rest) k seen cache

/-- The tail of the formula path of `displayValue`: hand the substituted text to the
host evaluator (`new Function`), cache and return the rendered result, or catch the
thrown exception, caching and returning its message.  The first component stays
`none` when fuel ran out or the host evaluation left the modelled fragment. -/
def finishEval (ck : Key) : Option ExprOut × Cache → Option String × Cache
  | (none, cache2) => (none, cache2)
  | (some (.err msg), cache2) => (some msg, cacheInsert cache2 ck msg)
  | (some (.ok out), cache2) =>
    match hostEval out with
    | some t => (some t, cacheInsert cache2 ck t)
    | none => (none, cache2)

/-- The body of `displayValue` past the cache check: read the raw content; a
non-formula is returned (and cached) verbatim; a formula is substituted over and the
result handed to the host evaluator via `finishEval`. -/
def displayCore (g : Grid) (dv : Int → Int → Cache → Option String × Cache)
    (row col : Int) (cache : Cache) : Option String × Cache :=
  let ck : Key := (row, col)
  let raw := getValue g row col
  if startsWithEq raw then
    finishEval ck (processSegs g dv ck (segmentize (raw.toList.drop 1)) [] cache)
  else (some raw, cacheInsert cache ck raw)

/-- `displayValue(row, col)`: serve a non-empty cached entry
(`if (calculationCache.current[cellKey])` — an empty cached string is falsy and is
recomputed), otherwise run `displayCore`.  Fuel-indexed: nested reference evaluation
recurses one fuel step down; `(none, cache)` when fuel is exhausted. -/
def displayValue (g : Grid) : Nat → Int → Int → Cache → Option String × Cache
  | 0 => fun _ _ cache => (none, cache)
  | fuel + 1 => fun row col cache =>
    match alookup cache (row, col) with
    | some v =>
      if v = "" then displayCore g (displayValue g fuel) row col cache
      else (some v, cache)
    | none => displayCore g (displayValue g fuel) row col cache

/-- `mapOk` without a cache, for the cache-free scan. -/
def mapOkP (f : List Char → List Char) : Option ExprOut → Option ExprOut
  | some (.ok out) => some (.ok (f out))
  | other => other

/-- Cache-free counterpart of `refSubst` (the nested evaluation `dp` is pure). -/
def refSubstP (g : Grid) (dp : Int → Int → Option String) (ck : Key)
    (cont : List Key → Option ExprOut) (k : Key) (seen : List Key) : Option ExprOut :=
  if k ∈ seen ∨ k = ck then some (.err "Circular reference")
  else
    match alookup g k with
    | none => mapOkP ('0' :: ·) (cont (k :: seen))
    | some v =>
      if v = "" then mapOkP ('0' :: ·) (cont (k :: seen))
      else if startsWithEq v then
        match dp k.1 k.2 with
        | none => none
        | some s => mapOkP (s.toList ++ ·) (cont (k :: seen))
      else if jsIsNumeric v then mapOkP (v.toList ++ ·) (cont (k :: seen))
      else mapOkP (('"' :: v.toList ++ ['"']) ++ ·) (cont (k :: seen))

/-- Cache-free substitution scan: the reference semantics used to express what the
grid alone determines.  Identical to `processSegs` with the cache removed and the
nested evaluation `dp` pure. -/
def processSegsP (g : Grid) (dp : Int → Int → Option String) (ck : Key) :
    List Seg → List Key → Option ExprOut
  | [] => fun _ => some (.ok [])
  | .lit cs :: rest => fun seen => mapOkP (cs ++ ·) (processSegsP g dp ck rest seen)
  | .ref L D :: rest => fun seen =>
    match labelToCellKey (String.mk (L ++ D)) with
    | none => mapOkP ('0' :: ·) (processSegsP g dp ck rest seen)
    | some k => refSubstP g dp ck (processSegsP g dp ck rest) k seen

/-- Cache-free counterpart of `finishEval`. -/
def finishEvalP : Option ExprOut → Option String
  | none => none
  | some (.err msg) => some msg
  | some (.ok out) => hostEval out

/-- Cache-free core of a single cell evaluation, against the grid alone. -/
def displayPureCore (g : Grid) (dp : Int → Int → Option String) (row col : Int) :
    Option String :=
  let raw := getValue g row col
  if startsWithEq raw then
    finishEvalP (processSegsP g dp (row, col) (segmentize (raw.toList.drop 1)) [])
  else some raw

/-- Cache-free, fuel-indexed evaluation: the display text the grid state determines
for a cell (`some` results are fuel-monotone and unique). -/
def displayPure (g : Grid) : Nat → Int → Int → Option String
  | 0 => fun _ _ => none
  | fuel + 1 => fun row col => displayPureCore g (displayPure g fuel) row col

/-- The engine state owned by the component: `gridData` and `calculationCache.current`. -/
structure EngineState where
  grid : Grid
  cache : Cache
deriving DecidableEq, Repr

/-- The initial state: `useState({})` and `useRef({})`. -/
def initState : EngineState := ⟨[], []⟩

/-- `setValue(row, col, value)`: write the raw content and clear the entire cache
(`calculationCache.current = {}`). -/
def setValue (row col : Int) (v : String) (s : EngineState) : EngineState :=
  ⟨((row, col), v) :: s.grid, []⟩

/-- One external operation on the engine: an edit, or a display-text computation
with a given fuel (a display only mutates the cache). -/
inductive Op where
  | set (row col : Int) (v : String)
  | display (fuel : Nat) (row col : Int)
deriving DecidableEq, Repr

/-- Apply one operation to the engine state. -/
def applyOp : Op → EngineState → EngineState
  | .set r c v, s => setValue r c v s
  | .display f r c, s => ⟨s.grid, (displayValue s.grid f r c s.cache).2⟩

/-- Run a sequence of operations from a state. -/
def runOps : List Op → EngineState → EngineState
  | [], s => s
  | op :: ops, s => runOps ops (applyOp op s)

/-- A state the engine can actually be in: reachable from the initial state. -/
def Reachable (s : EngineState) : Prop := ∃ ops, runOps ops initState = s

/-- The display text the grid determines for a key: the value of the cache-free
evaluation at some (hence, by monotonicity, any sufficient) fuel. -/
def Determines (g : Grid) (k : Key) (v : String) : Prop :=
  ∃ f, displayPure g f k.1 k.2 = some v

/-- Cache consistency: every cached entry is the display text the grid determines
for its cell. -/
def Consistent (g : Grid) (cache : Cache) : Prop :=
  ∀ k v, alookup cache k = some v → Determines g k v

/-- Soundness of a (fuel-instantiated) `displayValue` entry point: from a consistent
cache it preserves consistency, and any text it returns is the one the grid
determines. -/
def DVOk (g : Grid) (dv : Int → Int → Cache → Option String × Cache) : Prop :=
  ∀ r c cache, Consistent g cache →
    Consistent g (dv r c cache).2 ∧ ∀ v, (dv r c cache).1 = some v → Determines g (r, c) v

/-- The two-cell mutual cycle `setRaw(A1, "=B1"); setRaw(B1, "=A1")`. -/
def cycGrid : Grid := [((0, 0), "=B1"), ((0, 1), "=A1")]

/-- Modelled from the spec: the bounded expression grammar of §4.3 step 6 (numeric
literals, quoted string literals, `+`, `-`, `*`, `/`, parentheses), which the spec
says is the only thing the arithmetic step may ever execute.  The scan tracks
whether it is inside a quoted string literal; outside one, only digits, the decimal
point, the four operators, parentheses and spaces are in the grammar. -/
def grammarScan : Bool → List Char → Bool
  | inside, [] => !inside
  | inside, c :: cs =>
    if c = '"' then grammarScan (!inside) cs
    else if inside then grammarScan inside cs
    else
      (isDigitCh c || c = '+' || c = '-' || c = '*' || c = '/' || c = '(' || c = ')' ||
        c = ' ' || c = '.') && grammarScan false cs

/-- Modelled from the spec: membership of an expression in the bounded grammar's
character language. -/
def inBoundedGrammar (s : String) : Bool := grammarScan false s.toList

/-- Copy of `processSegs` whose only difference is the branch for a reference-shaped
token that fails to decode (`if (!key) return "0"` in the source): here it answers
with a sentinel exception instead of substituting `"0"`.  Proving both functions
equal on every scanner output shows that branch is never taken. -/
def processSegsNF (g : Grid) (dv : Int → Int → Cache → Option String × Cache) (ck : Key) :
    List Seg → List Key → Cache → Option ExprOut × Cache
  | [] => fun _ cache => (some (.ok []), cache)
  | .lit cs :: rest => fun seen cache => mapOk (cs ++ ·) (processSegsNF g dv ck rest seen cache)
  | .ref L D :: rest => fun seen cache =>
    match labelToCellKey (String.mk (L ++ D)) with
    | none => (some (.err "unreachable: scanner token failed to decode"), cache)
    | some k => refSubst g dv ck (processSegsNF g dv ck rest) k seen cache

/-- Well-formedness of a scanned reference token: a non-empty uppercase letter run
followed by a non-empty digit run — exactly what `[A-Z]+\d+` matches. -/
def refWF (L D : List Char) : Prop :=
  L ≠ [] ∧ (∀ c ∈ L, isUpperAZ c = true) ∧ D ≠ [] ∧ (∀ c ∈ D, isDigitCh c = true)

/-- Invariant carried by the scanner states. -/
def stWF : ScanState → Prop
  | .copy => True
  | .letters acc => acc ≠ [] ∧ ∀ c ∈ acc, isUpperAZ c = true
  | .digits L acc =>
    L ≠ [] ∧ (∀ c ∈ L, isUpperAZ c = true) ∧ acc ≠ [] ∧ ∀ c ∈ acc, isDigitCh c = true

/-! ### Coordinate codec lemmas -/

lemma letterChar_toNat {d : Nat} (h : d < 26) : (letterChar d).toNat = 65 + d := by
  interval_cases d <;> rfl

lemma digitChar_toNat {d : Nat} (h : d < 10) : (digitChar d).toNat = 48 + d := by
  interval_cases d <;> rfl

lemma isUpperAZ_letterChar {d : Nat} (h : d < 26) : isUpperAZ (letterChar d) = true := by
  simp only [isUpperAZ, letterChar_toNat h, Bool.and_eq_true, decide_eq_true_eq]
  omega

lemma isDigitCh_digitChar {d : Nat} (h : d < 10) : isDigitCh (digitChar d) = true := by
  simp only [isDigitCh, digitChar_toNat h, Bool.and_eq_true, decide_eq_true_eq]
  omega

lemma not_upper_of_digit {c : Char} (h : isDigitCh c = true) : isUpperAZ c = false := by
  simp only [isDigitCh, Bool.and_eq_true, decide_eq_true_eq] at h
  simp only [isUpperAZ, Bool.and_eq_false_iff, decide_eq_false_iff_not]
  omega

lemma takeWhile_append_all {p : Char → Bool} {L R : List Char}
    (h : ∀ c ∈ L, p c = true) : (L ++ R).takeWhile p = L ++ R.takeWhile p := by
  induction L with
  | nil => simp
  | cons c cs ih =>
      simp only [List.cons_append, List.takeWhile_cons]
      rw [h c (by simp), ih fun x hx => h x (by simp [hx])]
      simp

lemma dropWhile_append_all {p : Char → Bool} {L R : List Char}
    (h : ∀ c ∈ L, p c = true) : (L ++ R).dropWhile p = R.dropWhile p := by
  induction L with
  | nil => simp
  | cons c cs ih =>
      simp only [List.cons_append, List.dropWhile_cons]
      rw [h c (by simp), ih fun x hx => h x (by simp [hx])]
      simp

lemma takeWhile_head_false {p : Char → Bool} {R : List Char}
    (h : ∀ c, R.head? = some c → p c = false) : R.takeWhile p = [] := by
  cases R with
  | nil => rfl
  | cons c cs => simp [List.takeWhile_cons, h c rfl]

lemma dropWhile_head_false {p : Char → Bool} {R : List Char}
    (h : ∀ c, R.head? = some c → p c = false) : R.dropWhile p = R := by
  cases R with
  | nil => rfl
  | cons c cs => simp [List.dropWhile_cons, h c rfl]

lemma colDigitsAux_spec : ∀ f c, c ≤ f →
    (∀ d ∈ colDigitsAux f c, d < 26) ∧ colDigitsAux f c ≠ [] ∧
      (colDigitsAux f c).foldl (fun a d => a * 26 + (d + 1)) 0 = c + 1 := by
  intro f
  induction f with
  | zero =>
      intro c hc
      have : c = 0 := Nat.le_zero.mp hc
      subst this
      refine ⟨?_, by simp [colDigitsAux], by simp [colDigitsAux]⟩
      intro d hd
      simp [colDigitsAux] at hd
      omega
  | succ f ih =>
      intro c hc
      by_cases h26 : c < 26
      · refine ⟨?_, by simp [colDigitsAux, if_pos h26], by simp [colDigitsAux, if_pos h26]⟩
        intro d hd
        simp [colDigitsAux, if_pos h26] at hd
        omega
      · have hdiv : c / 26 - 1 ≤ f := by
          have h1 : c / 26 < c := Nat.div_lt_self (by omega) (by omega)
          omega
        obtain ⟨hmem, hne, hfold⟩ := ih (c / 26 - 1) hdiv
        have heq : colDigitsAux (f + 1) c = colDigitsAux f (c / 26 - 1) ++ [c % 26] := by
          simp [colDigitsAux, if_neg h26]
        refine ⟨?_, by simp [heq], ?_⟩
        · intro d hd
          rw [heq] at hd
          rcases List.mem_append.mp hd with h | h
          · exact hmem d h
          · simp at h
            omega
        · rw [heq, List.foldl_append, hfold]
          simp only [List.foldl_cons, List.foldl_nil]
          have h1 : c / 26 ≥ 1 := Nat.one_le_div_iff (by omega) |>.mpr (by omega)
          have h2 : 26 * (c / 26) + c % 26 = c := Nat.div_add_mod c 26
          omega

lemma digitsToNat_append (xs : List Char) (c : Char) :
    digitsToNat (xs ++ [c]) = digitsToNat xs * 10 + (c.toNat - 48) := by
  simp [digitsToNat, List.foldl_append]

lemma natToStringAux_spec : ∀ f n, n < f →
    (∀ c ∈ natToStringAux f n, isDigitCh c = true) ∧ natToStringAux f n ≠ [] ∧
      digitsToNat (natToStringAux f n) = n := by
  intro f
  induction f with
  | zero => omega
  | succ f ih =>
      intro n hn
      by_cases h10 : n < 10
      · have heq : natToStringAux (f + 1) n = [digitChar n] := by
          simp [natToStringAux, if_pos h10]
        refine ⟨?_, by simp [heq], ?_⟩
        · intro c hc
          rw [heq] at hc
          simp at hc
          subst hc
          exact isDigitCh_digitChar h10
        · rw [heq]
          show digitsToNat ([] ++ [digitChar n]) = n
          rw [digitsToNat_append, digitChar_toNat h10]
          simp [digitsToNat]
      · have hdiv : n / 10 < f := by
          have h1 : n / 10 < n := Nat.div_lt_self (by omega) (by omega)
          omega
        obtain ⟨hmem, hne, hfold⟩ := ih (n / 10) hdiv
        have heq : natToStringAux (f + 1) n = natToStringAux f (n / 10) ++ [digitChar (n % 10)] := by
          simp [natToStringAux, if_neg h10]
        refine ⟨?_, by simp [heq], ?_⟩
        · intro c hc
          rw [heq] at hc
          rcases List.mem_append.mp hc with h | h
          · exact hmem c h
          · simp at h
            subst h
            exact isDigitCh_digitChar (by omega)
        · rw [heq, digitsToNat_append, hfold, digitChar_toNat (by omega)]
          have h2 : 10 * (n / 10) + n % 10 = n := Nat.div_add_mod n 10
          omega

lemma natToString_spec (n : Nat) :
    (∀ c ∈ natToString n, isDigitCh c = true) ∧ natToString n ≠ [] ∧
      digitsToNat (natToString n) = n :=
  natToStringAux_spec (n + 1) n (by omega)

lemma foldl_letters : ∀ (ds : List Nat), (∀ d ∈ ds, d < 26) → ∀ a : Nat,
    (ds.map letterChar).foldl (fun x c => x * 26 + (c.toNat - 65 + 1)) a =
      ds.foldl (fun x d => x * 26 + (d + 1)) a := by
  intro ds
  induction ds with
  | nil => intro _ a; rfl
  | cons d ds ih =>
      intro h a
      simp only [List.map_cons, List.foldl_cons]
      rw [letterChar_toNat (h d (by simp))]
      rw [ih (fun x hx => h x (by simp [hx]))]
      congr 1
      omega

/-- C4: for every non-negative coordinate, decoding the encoded label returns
exactly that coordinate — `labelToCellKey (cellKeyToLabel row col) = some (row, col)`. -/
theorem claim_C4_codec_roundtrip :
    ∀ row col : Nat, labelToCellKey (cellKeyToLabel row col) = some ((row : Int), (col : Int)) := by
  intro row col
  obtain ⟨hcm, hcne, hcfold⟩ := colDigitsAux_spec col col (Nat.le_refl col)
  obtain ⟨hdm, hdne, hdfold⟩ := natToString_spec (row + 1)
  have hLup : ∀ c ∈ (colDigits col).map letterChar, isUpperAZ c = true := by
    intro c hc
    rcases List.mem_map.mp hc with ⟨d, hd, rfl⟩
    exact isUpperAZ_letterChar (hcm d hd)
  have hRhead : ∀ c, (natToString (row + 1)).head? = some c → isUpperAZ c = false := by
    intro c hc
    exact not_upper_of_digit (hdm c (List.mem_of_mem_head? hc))
  have htake : ((colDigits col).map letterChar ++ natToString (row + 1)).takeWhile isUpperAZ =
      (colDigits col).map letterChar := by
    rw [takeWhile_append_all hLup, takeWhile_head_false hRhead, List.append_nil]
  have hdrop : ((colDigits col).map letterChar ++ natToString (row + 1)).dropWhile isUpperAZ =
      natToString (row + 1) := by
    rw [dropWhile_append_all hLup, dropWhile_head_false hRhead]
  have hlist : (cellKeyToLabel row col).toList =
      (colDigits col).map letterChar ++ natToString (row + 1) := rfl
  rw [labelToCellKey, hlist, htake, hdrop]
  have hLne : (colDigits col).map letterChar ≠ [] := by
    simpa using hcne
  have hall : (natToString (row + 1)).all isDigitCh = true := List.all_eq_true.mpr hdm
  rw [if_neg (by simp [hLne, hdne, hall])]
  have hrow : digitsToNat (natToString (row + 1)) = row + 1 := hdfold
  have hcol : lettersToColValue ((colDigits col).map letterChar) = col + 1 := by
    rw [lettersToColValue, foldl_letters (colDigits col) hcm 0]
    exact hcfold
  rw [hrow, hcol]
  simp only [Option.some.injEq, Prod.mk.injEq]
  constructor <;> push_cast <;> omega

/-- C9: the decoder accepts a zero digit run — `labelToCellKey "A0"` succeeds and
yields row `-1`, column `0`, a coordinate outside the non-negative domain. -/
theorem claim_C9_decode_A0 : labelToCellKey "A0" = some (-1, 0) := by decide

/-! ### The mutual two-cell cycle -/

/-- On `cycGrid`, evaluating either cell of the mutual cycle consumes all fuel
without producing any result and without touching the cache: the per-expression
`referencedCells` set is rebuilt on every recursive `displayValue` entry, so nothing
ever stops the `A1 → B1 → A1 → …` recursion. -/
lemma cyc_displayValue_none :
    ∀ f, displayValue cycGrid f 0 0 [] = (none, []) ∧ displayValue cycGrid f 0 1 [] = (none, []) := by
  intro f
  induction f with
  | zero => exact ⟨rfl, rfl⟩
  | succ f ih =>
      have hA : getValue cycGrid 0 0 = "=B1" := by decide
      have hB : getValue cycGrid 0 1 = "=A1" := by decide
      have hAl : startsWithEq "=B1" = true := rfl
      have hBl : startsWithEq "=A1" = true := rfl
      have hAd : ("=B1" : String).toList.drop 1 = ['B', '1'] := rfl
      have hBd : ("=A1" : String).toList.drop 1 = ['A', '1'] := rfl
      have hsegB : segmentize ['B', '1'] = [Seg.ref ['B'] ['1']] := by decide
      have hsegA : segmentize ['A', '1'] = [Seg.ref ['A'] ['1']] := by decide
      have hkB : labelToCellKey (String.mk (['B'] ++ ['1'])) = some ((0 : Int), (1 : Int)) := by
        decide
      have hkA : labelToCellKey (String.mk (['A'] ++ ['1'])) = some ((0 : Int), (0 : Int)) := by
        decide
      have hcB : (((0 : Int), (1 : Int)) ∈ ([] : List Key) ∨
          ((0 : Int), (1 : Int)) = ((0 : Int), (0 : Int))) ↔ False := by decide
      have hcA : (((0 : Int), (0 : Int)) ∈ ([] : List Key) ∨
          ((0 : Int), (0 : Int)) = ((0 : Int), (1 : Int))) ↔ False := by decide
      have hlB : alookup cycGrid ((0 : Int), (1 : Int)) = some "=A1" := by decide
      have hlA : alookup cycGrid ((0 : Int), (0 : Int)) = some "=B1" := by decide
      have hneA : (("=A1" : String) = "") ↔ False := by decide
      have hneB : (("=B1" : String) = "") ↔ False := by decide
      have hcache : alookup ([] : Cache) ((0 : Int), (0 : Int)) = none := rfl
      have hcache2 : alookup ([] : Cache) ((0 : Int), (1 : Int)) = none := rfl
      constructor
      · simp only [displayValue, hcache, hA, hAl, hAd, hsegB, processSegs, refSubst, hkB, hcB,
          displayCore, finishEval, hlB, hneB, hneA, hBl, ih.2, if_false, if_true, reduceIte]
      · simp only [displayValue, hcache2, hB, hBl, hBd, hsegA, processSegs, refSubst, hkA, hcA,
          displayCore, finishEval, hlA, hneB, hneA, hAl, ih.1, if_false, if_true, reduceIte]

/-- C1: on the grid `setRaw(A1, "=B1"); setRaw(B1, "=A1")`, no amount of fuel makes
`displayValue` of either cell return the text `"Circular reference"` (it never
returns at all): the per-expression cycle check does not detect the two-cell mutual
cycle, so the claimed display text is never produced. -/
theorem claim_C1_mutual_cycle_not_detected :
    ∀ f, (displayValue cycGrid f 0 0 []).1 ≠ some "Circular reference" ∧
      (displayValue cycGrid f 0 1 []).1 ≠ some "Circular reference" := by
  intro f
  obtain ⟨h0, h1⟩ := cyc_displayValue_none f
  rw [h0, h1]
  exact ⟨by simp, by simp⟩

/-- C2: there is no recursion/chain-length guard — on the mutual cycle the
evaluation of A1 exhausts every fuel bound without completing, i.e. the source's
recursion is unbounded rather than converted into a reported error. -/
theorem claim_C2_no_recursion_guard :
    ∀ f, (displayValue cycGrid f 0 0 []).1 = none := by
  intro f
  rw [(cyc_displayValue_none f).1]

/-! ### Concrete circular-reference and substitution behaviour -/

/-- C5: whenever a scanned token decodes to a coordinate already in the
per-expression `referencedCells` set, or to the cell being evaluated, the whole scan
short-circuits at that token with the thrown `"Circular reference"`, leaving the
cache untouched — no further substitution happens (first conjunct, for every grid
and scan position).  Concretely, a self-reference (`setRaw(A1, "=A1")`), a same-cell
double reference (`setRaw(A1, "=A1+A1")`), and a formula referencing the same
*other* cell twice (`setRaw(A1, "5"); setRaw(B1, "=A1+A1")`) all display
`"Circular reference"`. -/
theorem claim_C5_expression_scoped_cycle_check :
    (∀ (g : Grid) (dv : Int → Int → Cache → Option String × Cache) (ck : Key)
        (L D : List Char) (rest : List Seg) (seen : List Key) (cache : Cache) (k : Key),
        labelToCellKey (String.mk (L ++ D)) = some k →
        (k ∈ seen ∨ k = ck) →
        processSegs g dv ck (.ref L D :: rest) seen cache =
          (some (.err "Circular reference"), cache)) ∧
    (displayValue [((0, 0), "=A1")] 10 0 0 []).1 = some "Circular reference" ∧
    (displayValue [((0, 0), "=A1+A1")] 10 0 0 []).1 = some "Circular reference" ∧
    (displayValue [((0, 0), "5"), ((0, 1), "=A1+A1")] 10 0 1 []).1 = some "Circular reference" := by
  refine ⟨?_, by decide, by decide, by decide⟩
  intro g dv ck L D rest seen cache k hk hg
  simp only [processSegs, hk, refSubst, if_pos hg]

/-- Witness for C5: the short-circuit conjunct at the self-referencing token `A1`
of the cell A1. -/
theorem claim_C5_witness :
    processSegs [((0, 0), "=A1")] (displayValue [((0, 0), "=A1")] 9) (0, 0)
        [Seg.ref ['A'] ['1']] [] [] = (some (.err "Circular reference"), []) :=
  claim_C5_expression_scoped_cycle_check.1 _ _ _ ['A'] ['1'] [] [] [] (0, 0)
    (by decide) (by decide)

/-- C7: `setRaw(A1, "5"); setRaw(B1, "=A1+1")` gives `displayText(B1) = "6"`: the
numeric literal in A1 is substituted as a numeric literal and the arithmetic result
is rendered as text. -/
theorem claim_C7_numeric_substitution :
    (displayValue [((0, 0), "5"), ((0, 1), "=A1+1")] 10 0 1 []).1 = some "6" := by decide

/-- C3: the arithmetic step is not a bounded-grammar evaluator.  For
`setRaw(A1, "=alert(1)")`, the substitution scan passes the text `alert(1)` through
unchanged to the dynamic `new Function` step even though it is outside the spec's
bounded expression grammar; the model therefore cannot assign the evaluation any
result (`none`): what runs there is arbitrary host-language code. -/
theorem claim_C3_arbitrary_code_reaches_eval :
    processSegs [((0, 0), "=alert(1)")] (displayValue [((0, 0), "=alert(1)")] 5) (0, 0)
        (segmentize ("alert(1)".toList)) [] [] = (some (.ok ("alert(1)".toList)), []) ∧
    inBoundedGrammar "alert(1)" = false ∧
    (displayValue [((0, 0), "=alert(1)")] 5 0 0 []).1 = none := by
  refine ⟨by decide, by decide, by decide⟩

/-! ### Scanner structure lemmas -/

lemma segsFrom_letters_run : ∀ (L : List Char), (∀ c ∈ L, isUpperAZ c = true) →
    ∀ (acc cs : List Char), segsFrom (.letters acc) (L ++ cs) = segsFrom (.letters (acc ++ L)) cs := by
  intro L
  induction L with
  | nil => intro _ acc cs; simp
  | cons c L ih =>
      intro h acc cs
      have hc : isUpperAZ c = true := h c (by simp)
      simp only [List.cons_append, segsFrom, segStep, hc, if_true, List.nil_append,
        List.append_eq]
      rw [ih (fun x hx => h x (by simp [hx])) (acc ++ [c]) cs]
      simp

lemma segsFrom_digits_run : ∀ (D : List Char), (∀ c ∈ D, isDigitCh c = true) →
    ∀ (L0 acc cs : List Char),
      segsFrom (.digits L0 acc) (D ++ cs) = segsFrom (.digits L0 (acc ++ D)) cs := by
  intro D
  induction D with
  | nil => intro _ L0 acc cs; simp
  | cons c D ih =>
      intro h L0 acc cs
      have hc : isDigitCh c = true := h c (by simp)
      simp only [List.cons_append, segsFrom, segStep, hc, if_true, List.nil_append,
        List.append_eq]
      rw [ih (fun x hx => h x (by simp [hx])) L0 (acc ++ [c]) cs]
      simp

lemma segsFrom_digits_end (rest : List Char) (L0 acc : List Char)
    (h : ∀ c ∈ rest.take 1, isDigitCh c = false) :
    segsFrom (.digits L0 acc) rest = .ref L0 acc :: segsFrom .copy rest := by
  cases rest with
  | nil => rfl
  | cons c cs =>
      have hc : isDigitCh c = false := h c (by simp)
      by_cases hu : isUpperAZ c = true
      · simp [segsFrom, segStep, hc, hu]
      · simp only [Bool.not_eq_true] at hu
        simp [segsFrom, segStep, hc, hu]

/-- The scan of `L ++ D ++ rest`, with `L` a non-empty uppercase run, `D` a
non-empty digit run not extendable into `rest`: the first match is exactly the
token `L D`, and the scan continues on `rest` exactly as a fresh scan would. -/
lemma segmentize_token (L D rest : List Char)
    (hL : L ≠ []) (hLc : ∀ c ∈ L, isUpperAZ c = true)
    (hD : D ≠ []) (hDc : ∀ c ∈ D, isDigitCh c = true)
    (hrest : ∀ c ∈ rest.take 1, isDigitCh c = false) :
    segmentize (L ++ (D ++ rest)) = .ref L D :: segmentize rest := by
  cases L with
  | nil => exact absurd rfl hL
  | cons l L2 =>
      cases D with
      | nil => exact absurd rfl hD
      | cons d D2 =>
          have hl : isUpperAZ l = true := hLc l (by simp)
          have hd : isDigitCh d = true := hDc d (by simp)
          have hdu : isUpperAZ d = false := not_upper_of_digit hd
          show segsFrom .copy (l :: (L2 ++ ((d :: D2) ++ rest))) = _
          simp only [segsFrom, segStep, hl, if_true, List.nil_append]
          rw [segsFrom_letters_run L2 (fun x hx => hLc x (by simp [hx])) [l] ((d :: D2) ++ rest)]
          simp only [List.cons_append, segsFrom, segStep, hdu, hd, if_true, if_false,
            Bool.false_eq_true, List.nil_append, List.singleton_append, List.append_eq]
          rw [segsFrom_digits_run D2 (fun x hx => hDc x (by simp [hx])) (l :: L2) [d] rest]
          rw [segsFrom_digits_end rest (l :: L2) ([d] ++ D2) hrest]
          simp [segmentize]

lemma segStep_wf (st : ScanState) (c : Char) (hst : stWF st) :
    stWF (segStep st c).2 ∧ ∀ L D, Seg.ref L D ∈ (segStep st c).1 → refWF L D := by
  cases st with
  | copy =>
      by_cases hu : isUpperAZ c = true
      · simp only [segStep, hu, if_true]
        refine ⟨⟨by simp, ?_⟩, by simp⟩
        intro x hx
        simp at hx
        subst hx
        exact hu
      · simp only [segStep, if_neg hu]
        exact ⟨trivial, by simp⟩
  | letters acc =>
      obtain ⟨hne, hall⟩ := hst
      by_cases hu : isUpperAZ c = true
      · simp only [segStep, hu, if_true]
        refine ⟨⟨by simp, ?_⟩, by simp⟩
        intro x hx
        rcases List.mem_append.mp hx with h | h
        · exact hall x h
        · simp at h
          subst h
          exact hu
      · by_cases hd : isDigitCh c = true
        · simp only [segStep, if_neg hu, hd, if_true]
          refine ⟨⟨hne, hall, by simp, ?_⟩, by simp⟩
          intro x hx
          simp at hx
          subst hx
          exact hd
        · simp only [segStep, if_neg hu, if_neg hd]
          exact ⟨trivial, by simp⟩
  | digits L0 acc =>
      obtain ⟨h1, h2, h3, h4⟩ := hst
      by_cases hd : isDigitCh c = true
      · simp only [segStep, hd, if_true]
        refine ⟨⟨h1, h2, by simp, ?_⟩, by simp⟩
        intro x hx
        rcases List.mem_append.mp hx with h | h
        · exact h4 x h
        · simp at h
          subst h
          exact hd
      · by_cases hu : isUpperAZ c = true
        · simp only [segStep, if_neg hd, hu, if_true]
          refine ⟨⟨by simp, ?_⟩, ?_⟩
          · intro x hx
            simp at hx
            subst hx
            exact hu
          · intro L D hmem
            simp only [List.mem_singleton] at hmem
            injection hmem with hA hB
            subst hA
            subst hB
            exact ⟨h1, h2, h3, h4⟩
        · simp only [segStep, if_neg hd, if_neg hu]
          refine ⟨trivial, ?_⟩
          intro L D hmem
          simp only [List.mem_cons, List.mem_singleton] at hmem
          rcases hmem with h | h | h
          · injection h with hA hB
            subst hA
            subst hB
            exact ⟨h1, h2, h3, h4⟩
          · exact Seg.noConfusion h
          · exact absurd h (List.not_mem_nil _)

lemma segsFrom_wf : ∀ (cs : List Char) (st : ScanState), stWF st →
    ∀ L D, Seg.ref L D ∈ segsFrom st cs → refWF L D := by
  intro cs
  induction cs with
  | nil =>
      intro st hst L D hmem
      cases st with
      | copy => simp [segsFrom, segFlush] at hmem
      | letters acc => simp [segsFrom, segFlush] at hmem
      | digits L0 acc =>
          simp only [segsFrom, segFlush, List.mem_singleton, Seg.ref.injEq] at hmem
          obtain ⟨rfl, rfl⟩ := hmem
          exact ⟨hst.1, hst.2.1, hst.2.2.1, hst.2.2.2⟩
  | cons c cs ih =>
      intro st hst L D hmem
      simp only [segsFrom] at hmem
      rcases List.mem_append.mp hmem with h | h
      · exact (segStep_wf st c hst).2 L D h
      · exact ih (segStep st c).2 (segStep_wf st c hst).1 L D h

lemma labelToCellKey_of_refWF {L D : List Char} (h : refWF L D) :
    (labelToCellKey (String.mk (L ++ D))).isSome = true := by
  obtain ⟨hL, hLc, hD, hDc⟩ := h
  have hhead : ∀ c, D.head? = some c → isUpperAZ c = false := fun c hc =>
    not_upper_of_digit (hDc c (List.mem_of_mem_head? hc))
  have hlist : (String.mk (L ++ D)).toList = L ++ D := rfl
  have htake : (L ++ D).takeWhile isUpperAZ = L := by
    rw [takeWhile_append_all hLc, takeWhile_head_false hhead, List.append_nil]
  have hdrop : (L ++ D).dropWhile isUpperAZ = D := by
    rw [dropWhile_append_all hLc, dropWhile_head_false hhead]
  rw [labelToCellKey]
  simp only [hlist, htake, hdrop]
  rw [if_neg (by simp [hL, hD, List.all_eq_true.mpr hDc])]
  rfl

lemma processSegs_eq_NF (g : Grid) (dv : Int → Int → Cache → Option String × Cache) (ck : Key) :
    ∀ segL : List Seg,
      (∀ L D, Seg.ref L D ∈ segL → (labelToCellKey (String.mk (L ++ D))).isSome = true) →
      ∀ seen cache, processSegs g dv ck segL seen cache = processSegsNF g dv ck segL seen cache := by
  intro segL
  induction segL with
  | nil => intro _ _ _; rfl
  | cons sg rest ih =>
      intro h seen cache
      have hrest : ∀ L D, Seg.ref L D ∈ rest → (labelToCellKey (String.mk (L ++ D))).isSome = true :=
        fun L D hm => h L D (List.mem_cons_of_mem _ hm)
      have hcont : processSegs g dv ck rest = processSegsNF g dv ck rest := by
        funext s2 c2
        exact ih hrest s2 c2
      cases sg with
      | lit cs => simp only [processSegs, processSegsNF, hcont]
      | ref L D =>
          obtain ⟨k, hk⟩ := Option.isSome_iff_exists.mp (h L D (by simp))
          simp only [processSegs, processSegsNF, hk, hcont]

/-- C8: a reference token decoding to a key with no stored content — with no bounds
check of any kind — substitutes the literal `0` and the scan proceeds normally
(first conjunct, for every grid, token and scan position); concretely, `ZZZ123456`
decodes to row 123455, column 18277, both beyond the 10,000 × 10,000 extent, and
`setRaw(A1, "=ZZZ123456+1")` displays `"1"`. -/
theorem claim_C8_unset_reference_is_zero :
    (∀ (g : Grid) (dv : Int → Int → Cache → Option String × Cache) (ck : Key)
        (L D rest : List Char) (seen : List Key) (cache : Cache) (k : Key),
        L ≠ [] → (∀ c ∈ L, isUpperAZ c = true) →
        D ≠ [] → (∀ c ∈ D, isDigitCh c = true) →
        (∀ c ∈ rest.take 1, isDigitCh c = false) →
        labelToCellKey (String.mk (L ++ D)) = some k →
        ¬(k ∈ seen ∨ k = ck) →
        alookup g k = none →
        processSegs g dv ck (segmentize (L ++ (D ++ rest))) seen cache =
          mapOk ('0' :: ·) (processSegs g dv ck (segmentize rest) (k :: seen) cache)) ∧
    labelToCellKey "ZZZ123456" = some (123455, 18277) ∧
    ((10000 : Int) ≤ 123455 ∧ (10000 : Int) ≤ 18277) ∧
    (displayValue [((0, 0), "=ZZZ123456+1")] 10 0 0 []).1 = some "1" := by
  refine ⟨?_, by decide, by decide, by decide⟩
  intro g dv ck L D rest seen cache k hL hLc hD hDc hrest hk hc hlook
  rw [segmentize_token L D rest hL hLc hD hDc hrest]
  simp only [processSegs, refSubst, hk, if_neg hc, hlook]

/-- Witness for C8: the general conjunct applied to the concrete token `ZZZ123456`
in the formula `=ZZZ123456+1` on a grid where that cell is unset. -/
theorem claim_C8_witness :
    processSegs [((0, 0), "=ZZZ123456+1")] (displayValue [((0, 0), "=ZZZ123456+1")] 3) (0, 0)
        (segmentize (['Z', 'Z', 'Z'] ++ (['1', '2', '3', '4', '5', '6'] ++ ['+', '1']))) [] [] =
      mapOk ('0' :: ·)
        (processSegs [((0, 0), "=ZZZ123456+1")] (displayValue [((0, 0), "=ZZZ123456+1")] 3) (0, 0)
          (segmentize ['+', '1']) [(123455, 18277)] []) :=
  claim_C8_unset_reference_is_zero.1 _ _ _ _ _ _ _ _ _
    (by decide) (by decide) (by decide) (by decide) (by decide) (by decide) (by decide) (by decide)

/-- C10: every token the scanner matches (`[A-Z]+\d+`) decodes successfully
(first conjunct), so the fallback branch substituting `"0"` for an undecodable
token is unreachable: `processSegs` agrees everywhere on scanner output with the
variant whose fallback branch is a sentinel (second conjunct). -/
theorem claim_C10_scanner_tokens_always_decode :
    (∀ (cs L D : List Char), Seg.ref L D ∈ segmentize cs →
      (labelToCellKey (String.mk (L ++ D))).isSome = true) ∧
    (∀ (g : Grid) (dv : Int → Int → Cache → Option String × Cache) (ck : Key)
        (cs : List Char) (seen : List Key) (cache : Cache),
      processSegs g dv ck (segmentize cs) seen cache =
        processSegsNF g dv ck (segmentize cs) seen cache) := by
  have hdec : ∀ (cs L D : List Char), Seg.ref L D ∈ segmentize cs →
      (labelToCellKey (String.mk (L ++ D))).isSome = true := by
    intro cs L D hmem
    exact labelToCellKey_of_refWF (segsFrom_wf cs .copy trivial L D hmem)
  refine ⟨hdec, ?_⟩
  intro g dv ck cs seen cache
  exact processSegs_eq_NF g dv ck (segmentize cs) (hdec cs) seen cache

/-- Witness for C10: the decoding conjunct at the concrete scanned token `A1`. -/
theorem claim_C10_witness :
    (labelToCellKey (String.mk (['A'] ++ ['1']))).isSome = true :=
  claim_C10_scanner_tokens_always_decode.1 ['A', '1'] ['A'] ['1'] (by decide)

/-! ### Monotonicity of the cache-free semantics -/

lemma processSegsP_mono (g : Grid) (ck : Key) (dp1 dp2 : Int → Int → Option String)
    (hdp : ∀ r c v, dp1 r c = some v → dp2 r c = some v) :
    ∀ (segL : List Seg) (seen : List Key) (x : ExprOut),
      processSegsP g dp1 ck segL seen = some x → processSegsP g dp2 ck segL seen = some x := by
  intro segL
  induction segL with
  | nil => intro seen x h; exact h
  | cons sg rest ih =>
      intro seen x h
      cases sg with
      | lit cs =>
          simp only [processSegsP] at h ⊢
          cases hrec : processSegsP g dp1 ck rest seen with
          | none => rw [hrec] at h; exact absurd h (by simp [mapOkP])
          | some e => rw [hrec] at h; rw [ih seen e hrec]; exact h
      | ref L D =>
          cases hdec : labelToCellKey (String.mk (L ++ D)) with
          | none =>
              simp only [processSegsP, hdec] at h ⊢
              cases hrec : processSegsP g dp1 ck rest seen with
              | none => rw [hrec] at h; exact absurd h (by simp [mapOkP])
              | some e => rw [hrec] at h; rw [ih seen e hrec]; exact h
          | some k =>
              by_cases hg : k ∈ seen ∨ k = ck
              · simp only [processSegsP, hdec, refSubstP, if_pos hg] at h ⊢
                exact h
              · cases hlook : alookup g k with
                | none =>
                    simp only [processSegsP, hdec, refSubstP, if_neg hg, hlook] at h ⊢
                    cases hrec : processSegsP g dp1 ck rest (k :: seen) with
                    | none => rw [hrec] at h; exact absurd h (by simp [mapOkP])
                    | some e => rw [hrec] at h; rw [ih _ e hrec]; exact h
                | some v =>
                    by_cases hve : v = ""
                    · simp only [processSegsP, hdec, refSubstP, if_neg hg, hlook,
                        if_pos hve] at h ⊢
                      cases hrec : processSegsP g dp1 ck rest (k :: seen) with
                      | none => rw [hrec] at h; exact absurd h (by simp [mapOkP])
                      | some e => rw [hrec] at h; rw [ih _ e hrec]; exact h
                    · by_cases hsw : startsWithEq v = true
                      · cases hdpv : dp1 k.1 k.2 with
                        | none =>
                            simp only [processSegsP, hdec, refSubstP, if_neg hg, hlook,
                              if_neg hve, if_pos hsw, hdpv] at h
                            exact Option.noConfusion h
                        | some s2 =>
                            simp only [processSegsP, hdec, refSubstP, if_neg hg, hlook,
                              if_neg hve, if_pos hsw, hdpv, hdp k.1 k.2 s2 hdpv] at h ⊢
                            cases hrec : processSegsP g dp1 ck rest (k :: seen) with
                            | none => rw [hrec] at h; exact absurd h (by simp [mapOkP])
                            | some e => rw [hrec] at h; rw [ih _ e hrec]; exact h
                      · by_cases hnum : jsIsNumeric v = true
                        · simp only [processSegsP, hdec, refSubstP, if_neg hg, hlook,
                            if_neg hve, if_neg hsw, if_pos hnum] at h ⊢
                          cases hrec : processSegsP g dp1 ck rest (k :: seen) with
                          | none => rw [hrec] at h; exact absurd h (by simp [mapOkP])
                          | some e => rw [hrec] at h; rw [ih _ e hrec]; exact h
                        · simp only [processSegsP, hdec, refSubstP, if_neg hg, hlook,
                            if_neg hve, if_neg hsw, if_neg hnum] at h ⊢
                          cases hrec : processSegsP g dp1 ck rest (k :: seen) with
                          | none => rw [hrec] at h; exact absurd h (by simp [mapOkP])
                          | some e => rw [hrec] at h; rw [ih _ e hrec]; exact h

lemma displayPureCore_mono (g : Grid) (dp1 dp2 : Int → Int → Option String)
    (hdp : ∀ r c v, dp1 r c = some v → dp2 r c = some v) (r c : Int) (v : String)
    (h : displayPureCore g dp1 r c = some v) : displayPureCore g dp2 r c = some v := by
  unfold displayPureCore at h ⊢
  by_cases hsw : startsWithEq (getValue g r c) = true
  · rw [if_pos hsw] at h ⊢
    cases hrec : processSegsP g dp1 (r, c) (segmentize ((getValue g r c).toList.drop 1)) [] with
    | none => rw [hrec] at h; exact absurd h (by simp [finishEvalP])
    | some e =>
        rw [hrec] at h
        rw [processSegsP_mono g (r, c) dp1 dp2 hdp _ [] e hrec]
        exact h
  · rw [if_neg hsw] at h ⊢
    exact h

lemma displayPure_mono (g : Grid) : ∀ f1 f2, f1 ≤ f2 → ∀ r c v,
    displayPure g f1 r c = some v → displayPure g f2 r c = some v := by
  intro f1
  induction f1 with
  | zero => intro f2 _ r c v h; exact absurd h (by simp [displayPure])
  | succ f1 ih =>
      intro f2 hle r c v h
      obtain ⟨f3, rfl⟩ : ∃ f3, f2 = f3 + 1 := ⟨f2 - 1, by omega⟩
      exact displayPureCore_mono g (displayPure g f1) (displayPure g f3)
        (fun r2 c2 v2 h2 => ih f3 (by omega) r2 c2 v2 h2) r c v h

/-- The display text the grid determines for a cell is unique. -/
lemma determines_unique (g : Grid) (k : Key) (v1 v2 : String)
    (h1 : Determines g k v1) (h2 : Determines g k v2) : v1 = v2 := by
  obtain ⟨f1, h1⟩ := h1
  obtain ⟨f2, h2⟩ := h2
  have h3 := displayPure_mono g f1 (max f1 f2) (le_max_left _ _) k.1 k.2 v1 h1
  have h4 := displayPure_mono g f2 (max f1 f2) (le_max_right _ _) k.1 k.2 v2 h2
  rw [h3] at h4
  exact (Option.some.injEq _ _ ▸ h4)

/-! ### Soundness of the cached evaluator against the cache-free semantics -/

lemma mapOk_snd (f : List Char → List Char) (p : Option ExprOut × Cache) :
    (mapOk f p).2 = p.2 := by
  rcases p with ⟨r, c⟩
  cases r with
  | none => rfl
  | some e => cases e <;> rfl

lemma mapOk_fst (f : List Char → List Char) (p : Option ExprOut × Cache) :
    (mapOk f p).1 = mapOkP f p.1 := by
  rcases p with ⟨r, c⟩
  cases r with
  | none => rfl
  | some e => cases e <;> rfl

lemma mapOkP_eq_some {f : List Char → List Char} {r : Option ExprOut} {x : ExprOut}
    (h : mapOkP f r = some x) :
    (∃ out, r = some (.ok out) ∧ x = .ok (f out)) ∨ (∃ m, r = some (.err m) ∧ x = .err m) := by
  cases r with
  | none => exact absurd h (by simp [mapOkP])
  | some e =>
      cases e with
      | ok out =>
          left
          refine ⟨out, rfl, ?_⟩
          have := Option.some.inj h
          exact this.symm
      | err m =>
          right
          refine ⟨m, rfl, ?_⟩
          have := Option.some.inj h
          exact this.symm

lemma consistent_insert {g : Grid} {cache : Cache} (hc : Consistent g cache) {k : Key}
    {v : String} (hd : Determines g k v) : Consistent g (cacheInsert cache k v) := by
  intro k2 v2 h
  simp only [cacheInsert, alookup] at h
  by_cases he : k2 = k
  · subst he
    rw [if_pos rfl] at h
    cases Option.some.inj h
    exact hd
  · rw [if_neg he] at h
    exact hc k2 v2 h

/-- Common step for the substitution branches that splice a fixed prefix and scan on:
consistency is preserved and the produced text is reproduced by the cache-free scan. -/
lemma sound_cont (g : Grid) (dv : Int → Int → Cache → Option String × Cache) (ck : Key)
    (rest : List Seg)
    (ih : ∀ (seen : List Key) (cache : Cache), Consistent g cache →
      Consistent g (processSegs g dv ck rest seen cache).2 ∧
      ∀ x, (processSegs g dv ck rest seen cache).1 = some x →
        ∃ f, processSegsP g (displayPure g f) ck rest seen = some x)
    (PRE : List Char) (segs0 : List Seg) (seen seen2 : List Key) (cache : Cache)
    (hc : Consistent g cache)
    (hpure : ∀ dp : Int → Int → Option String,
      processSegsP g dp ck segs0 seen = mapOkP (PRE ++ ·) (processSegsP g dp ck rest seen2)) :
    Consistent g (mapOk (PRE ++ ·) (processSegs g dv ck rest seen2 cache)).2 ∧
    ∀ x, (mapOk (PRE ++ ·) (processSegs g dv ck rest seen2 cache)).1 = some x →
      ∃ f, processSegsP g (displayPure g f) ck segs0 seen = some x := by
  obtain ⟨hc2, hex⟩ := ih seen2 cache hc
  refine ⟨by rw [mapOk_snd]; exact hc2, ?_⟩
  intro x hx
  rw [mapOk_fst] at hx
  rcases mapOkP_eq_some hx with ⟨out, ho, rfl⟩ | ⟨m, ho, rfl⟩
  · obtain ⟨f, hf⟩ := hex (.ok out) ho
    exact ⟨f, by rw [hpure (displayPure g f), hf]; rfl⟩
  · obtain ⟨f, hf⟩ := hex (.err m) ho
    exact ⟨f, by rw [hpure (displayPure g f), hf]; rfl⟩

/-- Common step for the formula branch: the recursively obtained display text is
determined by the grid, so a large enough pure fuel reproduces the whole scan. -/
lemma sound_cont_fm (g : Grid) (dv : Int → Int → Cache → Option String × Cache) (ck : Key)
    (rest : List Seg)
    (ih : ∀ (seen : List Key) (cache : Cache), Consistent g cache →
      Consistent g (processSegs g dv ck rest seen cache).2 ∧
      ∀ x, (processSegs g dv ck rest seen cache).1 = some x →
        ∃ f, processSegsP g (displayPure g f) ck rest seen = some x)
    (segs0 : List Seg) (seen : List Key) (k : Key) (cc2 : Cache) (s2 : String)
    (hcons2 : Consistent g cc2) (hdets : Determines g (k.1, k.2) s2)
    (hpure : ∀ dp : Int → Int → Option String, dp k.1 k.2 = some s2 →
      processSegsP g dp ck segs0 seen =
        mapOkP (s2.toList ++ ·) (processSegsP g dp ck rest (k :: seen))) :
    Consistent g (mapOk (s2.toList ++ ·) (processSegs g dv ck rest (k :: seen) cc2)).2 ∧
    ∀ x, (mapOk (s2.toList ++ ·) (processSegs g dv ck rest (k :: seen) cc2)).1 = some x →
      ∃ f, processSegsP g (displayPure g f) ck segs0 seen = some x := by
  obtain ⟨hc3, hex3⟩ := ih (k :: seen) cc2 hcons2
  refine ⟨by rw [mapOk_snd]; exact hc3, ?_⟩
  intro x hx
  rw [mapOk_fst] at hx
  obtain ⟨f0, hf0⟩ := hdets
  rcases mapOkP_eq_some hx with ⟨out, ho, rfl⟩ | ⟨m, ho, rfl⟩
  · obtain ⟨f1, hf1⟩ := hex3 (.ok out) ho
    refine ⟨max f0 f1, ?_⟩
    have hdp : displayPure g (max f0 f1) k.1 k.2 = some s2 :=
      displayPure_mono g f0 _ (le_max_left _ _) _ _ _ hf0
    rw [hpure _ hdp,
      processSegsP_mono g ck (displayPure g f1) (displayPure g (max f0 f1))
        (fun r c v h => displayPure_mono g f1 _ (le_max_right _ _) r c v h)
        rest (k :: seen) (.ok out) hf1]
    rfl
  · obtain ⟨f1, hf1⟩ := hex3 (.err m) ho
    refine ⟨max f0 f1, ?_⟩
    have hdp : displayPure g (max f0 f1) k.1 k.2 = some s2 :=
      displayPure_mono g f0 _ (le_max_left _ _) _ _ _ hf0
    rw [hpure _ hdp,
      processSegsP_mono g ck (displayPure g f1) (displayPure g (max f0 f1))
        (fun r c v h => displayPure_mono g f1 _ (le_max_right _ _) r c v h)
        rest (k :: seen) (.err m) hf1]
    rfl

lemma processSegs_sound (g : Grid) (dv : Int → Int → Cache → Option String × Cache)
    (hdv : DVOk g dv) (ck : Key) :
    ∀ (segL : List Seg) (seen : List Key) (cache : Cache), Consistent g cache →
      Consistent g (processSegs g dv ck segL seen cache).2 ∧
      ∀ x, (processSegs g dv ck segL seen cache).1 = some x →
        ∃ f, processSegsP g (displayPure g f) ck segL seen = some x := by
  intro segL
  induction segL with
  | nil =>
      intro seen cache hc
      exact ⟨hc, fun x hx => ⟨0, by rw [← Option.some.inj hx]; rfl⟩⟩
  | cons sg rest ih =>
      intro seen cache hc
      cases sg with
      | lit cs =>
          simp only [processSegs]
          exact sound_cont g dv ck rest ih cs (.lit cs :: rest) seen seen cache hc
            (fun dp => by simp only [processSegsP])
      | ref L D =>
          cases hdec : labelToCellKey (String.mk (L ++ D)) with
          | none =>
              simp only [processSegs, hdec]
              exact sound_cont g dv ck rest ih ['0'] (.ref L D :: rest) seen seen cache hc
                (fun dp => by simp only [processSegsP, hdec]; rfl)
          | some k =>
              by_cases hg : k ∈ seen ∨ k = ck
              · simp only [processSegs, hdec, refSubst, if_pos hg]
                refine ⟨hc, fun x hx => ⟨0, ?_⟩⟩
                simp only [processSegsP, hdec, refSubstP, if_pos hg]
                exact hx
              · cases hlook : alookup g k with
                | none =>
                    simp only [processSegs, hdec, refSubst, if_neg hg, hlook]
                    exact sound_cont g dv ck rest ih ['0'] (.ref L D :: rest) seen (k :: seen)
                      cache hc
                      (fun dp => by
                        simp only [processSegsP, hdec, refSubstP, if_neg hg, hlook]
                        rfl)
                | some v =>
                    by_cases hve : v = ""
                    · simp only [processSegs, hdec, refSubst, if_neg hg, hlook, if_pos hve]
                      exact sound_cont g dv ck rest ih ['0'] (.ref L D :: rest) seen (k :: seen)
                        cache hc
                        (fun dp => by
                          simp only [processSegsP, hdec, refSubstP, if_neg hg, hlook, if_pos hve]
                          rfl)
                    · by_cases hsw : startsWithEq v = true
                      · simp only [processSegs, hdec, refSubst, if_neg hg, hlook, if_neg hve,
                          if_pos hsw]
                        cases hdvr : dv k.1 k.2 cache with
                        | mk rr cc2 =>
                            obtain ⟨hcons2, hdet⟩ := hdv k.1 k.2 cache hc
                            rw [hdvr] at hcons2 hdet
                            cases rr with
                            | none =>
                                exact ⟨hcons2, fun x hx => absurd hx (by simp)⟩
                            | some s2 =>
                                exact sound_cont_fm g dv ck rest ih (.ref L D :: rest) seen k cc2
                                  s2 hcons2 (hdet s2 rfl)
                                  (fun dp hdp => by
                                    simp only [processSegsP, hdec, refSubstP, if_neg hg, hlook,
                                      if_neg hve, if_pos hsw, hdp])
                      · by_cases hnum : jsIsNumeric v = true
                        · simp only [processSegs, hdec, refSubst, if_neg hg, hlook, if_neg hve,
                            if_neg hsw, if_pos hnum]
                          exact sound_cont g dv ck rest ih v.toList (.ref L D :: rest) seen
                            (k :: seen) cache hc
                            (fun dp => by
                              simp only [processSegsP, hdec, refSubstP, if_neg hg, hlook,
                                if_neg hve, if_neg hsw, if_pos hnum])
                        · simp only [processSegs, hdec, refSubst, if_neg hg, hlook, if_neg hve,
                            if_neg hsw, if_neg hnum]
                          exact sound_cont g dv ck rest ih ('"' :: v.toList ++ ['"'])
                            (.ref L D :: rest) seen (k :: seen) cache hc
                            (fun dp => by
                              simp only [processSegsP, hdec, refSubstP, if_neg hg, hlook,
                                if_neg hve, if_neg hsw, if_neg hnum])

lemma displayCore_sound (g : Grid) (dv : Int → Int → Cache → Option String × Cache)
    (hdv : DVOk g dv) (r c : Int) (cache : Cache) (hc : Consistent g cache) :
    Consistent g (displayCore g dv r c cache).2 ∧
    ∀ v, (displayCore g dv r c cache).1 = some v → Determines g (r, c) v := by
  simp only [displayCore]
  by_cases hsw : startsWithEq (getValue g r c) = true
  · rw [if_pos hsw]
    obtain ⟨hc2, hex⟩ := processSegs_sound g dv hdv (r, c)
      (segmentize ((getValue g r c).toList.drop 1)) [] cache hc
    cases hrec : processSegs g dv (r, c) (segmentize ((getValue g r c).toList.drop 1)) [] cache with
    | mk rr cc2 =>
        rw [hrec] at hc2 hex
        cases rr with
        | none => exact ⟨hc2, fun v hv => absurd hv (by simp [finishEval])⟩
        | some e =>
            cases e with
            | err m =>
                obtain ⟨f, hf⟩ := hex (.err m) rfl
                have hdet : Determines g (r, c) m := by
                  refine ⟨f + 1, ?_⟩
                  show displayPureCore g (displayPure g f) r c = some m
                  simp only [displayPureCore]
                  rw [if_pos hsw, hf]
                  rfl
                simp only [finishEval]
                refine ⟨consistent_insert hc2 hdet, fun v hv => ?_⟩
                cases Option.some.inj hv
                exact hdet
            | ok out =>
                simp only [finishEval]
                cases hhe : hostEval out with
                | none => exact ⟨hc2, fun v hv => absurd hv (by simp)⟩
                | some t =>
                    obtain ⟨f, hf⟩ := hex (.ok out) rfl
                    have hdet : Determines g (r, c) t := by
                      refine ⟨f + 1, ?_⟩
                      show displayPureCore g (displayPure g f) r c = some t
                      simp only [displayPureCore]
                      rw [if_pos hsw, hf]
                      simp only [finishEvalP]
                      exact hhe
                    refine ⟨consistent_insert hc2 hdet, fun v hv => ?_⟩
                    cases Option.some.inj hv
                    exact hdet
  · rw [if_neg hsw]
    have hdet : Determines g (r, c) (getValue g r c) := by
      refine ⟨1, ?_⟩
      show displayPureCore g (displayPure g 0) r c = some (getValue g r c)
      simp only [displayPureCore]
      rw [if_neg hsw]
    refine ⟨consistent_insert hc hdet, fun v hv => ?_⟩
    cases Option.some.inj hv
    exact hdet

lemma displayValue_sound (g : Grid) : ∀ fuel, DVOk g (displayValue g fuel) := by
  intro fuel
  induction fuel with
  | zero =>
      intro r c cache hc
      exact ⟨hc, fun v hv => absurd hv (by simp [displayValue])⟩
  | succ fuel ih =>
      intro r c cache hc
      cases hl : alookup cache (r, c) with
      | none =>
          have heq : displayValue g (fuel + 1) r c cache =
              displayCore g (displayValue g fuel) r c cache := by
            simp only [displayValue, hl]
          rw [heq]
          exact displayCore_sound g (displayValue g fuel) ih r c cache hc
      | some v =>
          by_cases hve : v = ""
          · have heq : displayValue g (fuel + 1) r c cache =
                displayCore g (displayValue g fuel) r c cache := by
              simp only [displayValue, hl, if_pos hve]
            rw [heq]
            exact displayCore_sound g (displayValue g fuel) ih r c cache hc
          · have heq : displayValue g (fuel + 1) r c cache = (some v, cache) := by
              simp only [displayValue, hl, if_neg hve]
            rw [heq]
            refine ⟨hc, fun v2 hv2 => ?_⟩
            cases Option.some.inj hv2
            exact hc (r, c) v hl

/-- Consistency is preserved by every engine operation: an edit clears the cache
(trivially consistent), a display computation only adds sound entries. -/
lemma runOps_consistent : ∀ (ops : List Op) (s : EngineState),
    Consistent s.grid s.cache → Consistent (runOps ops s).grid (runOps ops s).cache := by
  intro ops
  induction ops with
  | nil => intro s h; exact h
  | cons op ops ih =>
      intro s h
      apply ih
      cases op with
      | set r c v =>
          intro k v2 hk
          exact absurd hk (by simp [applyOp, setValue, alookup])
      | display f r c =>
          exact (displayValue_sound s.grid f r c s.cache h).1

/-- C6: every `setRaw` empties the entire cache; in every reachable engine state the
cache is consistent — each cached entry is the display text the current grid alone
determines for that cell (which is unique); and concretely
`setRaw(A1,"1"); setRaw(B1,"=A1")` makes `displayText(B1) = "1"`, and after a further
`setRaw(A1,"2")` (which clears the cache that the first read filled)
`displayText(B1) = "2"`. -/
theorem claim_C6_cache_clearing_and_consistency :
    (∀ (s : EngineState) (r c : Int) (v : String), (setValue r c v s).cache = []) ∧
    (∀ s : EngineState, Reachable s → Consistent s.grid s.cache) ∧
    (∀ (g : Grid) (k : Key) (v1 v2 : String),
      Determines g k v1 → Determines g k v2 → v1 = v2) ∧
    (displayValue (runOps [Op.set 0 0 "1", Op.set 0 1 "=A1"] initState).grid 10 0 1
      (runOps [Op.set 0 0 "1", Op.set 0 1 "=A1"] initState).cache).1 = some "1" ∧
    (displayValue (runOps [Op.set 0 0 "1", Op.set 0 1 "=A1", Op.display 10 0 1,
        Op.set 0 0 "2"] initState).grid 10 0 1
      (runOps [Op.set 0 0 "1", Op.set 0 1 "=A1", Op.display 10 0 1,
        Op.set 0 0 "2"] initState).cache).1 = some "2" := by
  refine ⟨fun s r c v => rfl, ?_, determines_unique, by decide, by decide⟩
  rintro s ⟨ops, rfl⟩
  apply runOps_consistent
  intro k v hk
  exact absurd hk (by simp [initState, alookup])

/-- Witness for C6: the consistency invariant applied to the concrete reachable
state reached by two edits and one display-text computation. -/
theorem claim_C6_witness :
    Consistent (runOps [Op.set 0 0 "1", Op.set 0 1 "=A1", Op.display 10 0 1] initState).grid
      (runOps [Op.set 0 0 "1", Op.set 0 1 "=A1", Op.display 10 0 1] initState).cache :=
  claim_C6_cache_clearing_and_consistency.2.1 _
    ⟨[Op.set 0 0 "1", Op.set 0 1 "=A1", Op.display 10 0 1], rfl⟩

end ExcelClone
